import Mathlib

/-!
Verification of the egg-production core of the chickentracker web
application: the shared Zod validation schema
(src/lib/validations/egg-production.ts and the client dialog that reuses
it), the create / update / list API routes (POST, PUT, GET over the
egg-production table), and the monthly aggregation route
(GET /api/egg-production/monthly).

The embedding keeps the JavaScript semantics that matter here explicit:

* a JS `Date` is a calendar date (year, month 1-12, day) plus the
  milliseconds elapsed within that day; JS compares `Date`s by epoch
  milliseconds, which on canonical field values is the lexicographic
  comparison of the fields;
* `z.date().max(new Date(), msg)` evaluates `new Date()` once, when the
  schema object is created at module load, so the bound is the schema
  creation instant, modelled as an explicit `schemaNow` argument;
* `setMonth` normalises an out-of-range month into the year and then
  canonicalises a day-of-month that overflows the target month into the
  following month (ECMAScript MakeDay);
* the Prisma store enforces the composite unique index on
  (userId, date) and maintains the timestamp columns; those parts of the
  schema are modelled from the spec and the model tests;
* JS `Array.prototype.sort` is a stable sort by the comparator, modelled
  by insertion sort (the unique stable sort for a given comparator), and
  `localeCompare` on the pure-ASCII month keys is codepoint-lexicographic
  string comparison.
-/

set_option linter.unusedVariables false
set_option linter.unnecessarySimpa false

namespace ChickenTracker

/-- A JavaScript `Date` value in the server's (UTC) calendar: calendar
fields plus milliseconds within the day.  `month` is 1-based (the routes
always use `getMonth() + 1`). -/
structure JSDate where
  year : Int
  month : Int
  day : Int
  ms : Int
deriving DecidableEq, Repr

/-- JS compares `Date`s by epoch milliseconds; on canonical field values
this is the lexicographic comparison of the fields. -/
def JSDate.leb (a b : JSDate) : Bool :=
  if a.year ≠ b.year then decide (a.year < b.year)
  else if a.month ≠ b.month then decide (a.month < b.month)
  else if a.day ≠ b.day then decide (a.day < b.day)
  else decide (a.ms ≤ b.ms)

/-- Gregorian leap-year rule, as implemented by JS `Date`. -/
def isLeapYear (y : Int) : Bool :=
  (y % 4 == 0 && y % 100 != 0) || y % 400 == 0

/-- Number of days in calendar month `m` (1-based) of year `y`. -/
def daysInMonth (y m : Int) : Int :=
  if m = 2 then (if isLeapYear y then 29 else 28)
  else if m = 4 ∨ m = 6 ∨ m = 9 ∨ m = 11 then 30
  else 31

/-- The window-start computation of GET /api/egg-production/monthly:
`const sixMonthsAgo = new Date(); sixMonthsAgo.setMonth(sixMonthsAgo.getMonth() - 6);
sixMonthsAgo.setDate(1);`.
`setMonth` first borrows from the year to normalise the month index, then
ECMAScript MakeDay pushes a day-of-month that does not exist in the target
month into the following month (e.g. June 31 becomes July 1); `setDate(1)`
then sets the day of the resulting month to 1.  The time of day of `now`
is preserved throughout. -/
def computeWindowStart (now : JSDate) : JSDate :=
  let m0 : Int := (now.month - 1) - 6
  let y1 : Int := if m0 < 0 then now.year - 1 else now.year
  let m1 : Int := if m0 < 0 then m0 + 12 else m0
  let overflow : Bool := decide (daysInMonth y1 (m1 + 1) < now.day)
  let y2 : Int := if overflow ∧ m1 = 11 then y1 + 1 else y1
  let m2 : Int := if overflow then (if m1 = 11 then 0 else m1 + 1) else m1
  ⟨y2, m2 + 1, 1, now.ms⟩

/-- Modelled from the spec: "the first day of the calendar month that is 6
months before the current month", read as a pure calendar date (midnight),
with no day-of-month overflow and no time-of-day carried over. -/
def windowStartSpec (now : JSDate) : JSDate :=
  let m0 : Int := (now.month - 1) - 6
  if m0 < 0 then ⟨now.year - 1, m0 + 13, 1, 0⟩ else ⟨now.year, m0 + 1, 1, 0⟩

/-- Domain error kinds named by the spec. -/
inductive ErrKind where
  | DateInFuture
  | CountNotInteger
  | CountNegative
  | DuplicateDateEntry
  | NotFound
  | Forbidden
deriving DecidableEq, Repr

/-- A field-addressed validation issue, as produced by the Zod schema and
surfaced by the routes as `(field, message)` detail entries. -/
structure FieldIssue where
  kind : ErrKind
  field : String
  message : String
deriving DecidableEq, Repr

def dateInFutureIssue : FieldIssue :=
  ⟨.DateInFuture, "date", "Date cannot be in the future"⟩

def countNotIntegerIssue : FieldIssue :=
  ⟨.CountNotInteger, "count", "Count must be a whole number"⟩

def countNegativeIssue : FieldIssue :=
  ⟨.CountNegative, "count", "Count cannot be negative"⟩

/-- The value object a successful parse returns (date unchanged, count the
number that was passed in, known integral). -/
structure ValidatedEgg where
  date : JSDate
  count : ℚ
deriving DecidableEq, Repr

/-- `eggProductionSchema.parse` from src/lib/validations/egg-production.ts:
`z.object` with `date: z.date().max(new Date(), 'Date cannot be in the future')`
and `count: z.number().int('Count must be a whole number').min(0, 'Count cannot be negative')`.
`schemaNow` is the value of the `new Date()` expression, which is evaluated
once when the schema object is created (module load), not at each parse.
The submitted count is a JS number, modelled as a rational; integrality is
denominator 1.  Zod collects the issues of every field (and of both checks
of the `count` number schema) instead of stopping at the first one, each
tagged with its field path. -/
def eggProductionSchema (schemaNow : JSDate) (date : JSDate) (count : ℚ) :
    Except (List FieldIssue) ValidatedEgg :=
  match (if JSDate.leb date schemaNow then [] else [dateInFutureIssue]) ++
        ((if count.den = 1 then [] else [countNotIntegerIssue]) ++
         (if (0 : ℚ) ≤ count then [] else [countNegativeIssue])) with
  | [] => .ok ⟨date, count⟩
  | i :: is => .error (i :: is)

/-- The client dialog's schema (AddEditEggProductionDialog):
`const clientFormSchema = eggProductionSchema;` - literally the shared
server schema. -/
def clientFormSchema : JSDate → JSDate → ℚ → Except (List FieldIssue) ValidatedEgg :=
  eggProductionSchema

/-- The parse result contains the given issue (a rejection carrying that
kind, field and message). -/
def hasIssue (res : Except (List FieldIssue) ValidatedEgg) (i : FieldIssue) : Prop :=
  match res with
  | .error issues => i ∈ issues
  | .ok _ => False

/-- A row of the egg-production table.  `count` is the store's integer
column (writes put the validated, integral JS number there); `createdAt`
is set at insertion and never touched again, `updatedAt` is refreshed on
every mutation (store behaviour modelled from the spec and the model
tests, the Prisma schema itself not being part of the sources). -/
structure EggRecord where
  id : String
  userId : String
  date : JSDate
  count : Int
  createdAt : JSDate
  updatedAt : JSDate
deriving DecidableEq, Repr

/-- Outcome of POST /api/egg-production (authenticated path). -/
inductive PostResult where
  | created (entry : EggRecord) (db : List EggRecord)
  | badRequest (error : String) (details : List FieldIssue)
deriving DecidableEq, Repr

/-- POST /api/egg-production: validate the body with the shared schema; on
a Zod failure answer 400 with the formatted issue list; otherwise insert.
The store rejects a row whose (userId, date) already exists (composite
unique index); the route catches that uniqueness violation and translates
it into the duplicate-date 400 with its user-actionable message.  `newId`
and `now` stand for the generated id and the store's timestamp. -/
def postEggProduction (schemaNow : JSDate) (db : List EggRecord)
    (userId newId : String) (now : JSDate) (date : JSDate) (count : ℚ) :
    PostResult :=
  match eggProductionSchema schemaNow date count with
  | .error issues => .badRequest "Validation failed" issues
  | .ok v =>
    if db.any (fun r => r.userId == userId && r.date == v.date) then
      .badRequest "An entry already exists for this date"
        [⟨.DuplicateDateEntry, "date",
          "You already have an entry for this date. Please edit the existing entry instead."⟩]
    else
      let entry : EggRecord := ⟨newId, userId, v.date, v.count.num, now, now⟩
      .created entry (db ++ [entry])

/-- Outcome of PUT /api/egg-production/[id] (authenticated path). -/
inductive PutResult where
  | ok (entry : EggRecord) (db : List EggRecord)
  | badRequest (error : String) (details : List FieldIssue)
  | forbidden
  | notFound
deriving DecidableEq, Repr

/-- PUT /api/egg-production/[id]: load the row by id (404 when absent),
check ownership (403 when the row belongs to someone else) - both before
the body is parsed or validated - then validate the new (date, count) with
the shared schema, let the store's unique (userId, date) index reject a
collision with a different row of the same owner (translated to the
duplicate-date 400), and otherwise write the new fields; the store
refreshes `updatedAt` and keeps `createdAt`. -/
def putEggProduction (schemaNow : JSDate) (db : List EggRecord)
    (requesterId id : String) (now : JSDate) (date : JSDate) (count : ℚ) :
    PutResult :=
  match db.find? (fun r => r.id == id) with
  | none => .notFound
  | some existing =>
    if existing.userId ≠ requesterId then .forbidden
    else
      match eggProductionSchema schemaNow date count with
      | .error issues => .badRequest "Validation failed" issues
      | .ok v =>
        if db.any (fun r => r.id != id && r.userId == existing.userId && r.date == v.date) then
          .badRequest "An entry already exists for this date"
            [⟨.DuplicateDateEntry, "date",
              "You already have an entry for this date. Please select a different date or edit the existing entry."⟩]
        else
          let updated : EggRecord :=
            ⟨existing.id, existing.userId, v.date, v.count.num, existing.createdAt, now⟩
          .ok updated (db.map fun r => if r.id == id then updated else r)

/-- Descending-date relation used by the list route's `orderBy: date desc`. -/
def dateDescRel (a b : EggRecord) : Prop := JSDate.leb b.date a.date = true

instance : DecidableRel dateDescRel :=
  fun a b => inferInstanceAs (Decidable (_ = true))

/-- Ascending-date relation used by the monthly route's `orderBy: date asc`. -/
def dateAscRel (a b : EggRecord) : Prop := JSDate.leb a.date b.date = true

instance : DecidableRel dateAscRel :=
  fun a b => inferInstanceAs (Decidable (_ = true))

/-- GET /api/egg-production: all of the owner's rows, optionally filtered
to the inclusive date range given by the query parameters, ordered by date
descending. -/
def getEggProduction (db : List EggRecord) (userId : String)
    (startDate endDate : Option JSDate) : List EggRecord :=
  List.insertionSort dateDescRel
    (db.filter fun r =>
      r.userId == userId
      && (match startDate with | some s => JSDate.leb s r.date | none => true)
      && (match endDate with | some e => JSDate.leb r.date e | none => true))

/-- The projection the monthly route fetches (`select: date, count`). -/
structure EggEntry where
  date : JSDate
  count : Int
deriving DecidableEq, Repr

/-- `String(month).padStart(2, '0')`: prepend a zero when the rendered
number is a single character. -/
def pad2 (m : Int) : String :=
  let s := toString m
  if s.length < 2 then "0" ++ s else s

/-- The grouping key of the monthly route: year dash zero-padded 1-based
month, from `getFullYear()` and `getMonth() + 1`. -/
def monthKey (d : JSDate) : String :=
  toString d.year ++ "-" ++ pad2 d.month

/-- One output element of the monthly route. -/
structure MonthlyData where
  month : String
  totalCount : Int
  daysRecorded : Nat
deriving DecidableEq, Repr

/-- One step of the grouping loop: a JS `Map` keyed by the month key,
initialising an absent key with zeroes and then adding `count` to
`totalCount` and 1 to `daysRecorded`.  A JS `Map` keeps insertion order,
so it is an association list updated in place and extended at the end. -/
def insertMonthly (acc : List MonthlyData) (key : String) (c : Int) :
    List MonthlyData :=
  match acc with
  | [] => [⟨key, c, 1⟩]
  | m :: rest =>
    if m.month = key then ⟨m.month, m.totalCount + c, m.daysRecorded + 1⟩ :: rest
    else m :: insertMonthly rest key c

/-- The grouping loop of the monthly route over the fetched entries. -/
def groupMonthly (entries : List EggEntry) : List MonthlyData :=
  entries.foldl (fun acc e => insertMonthly acc (monthKey e.date) e.count) []

/-- Codepoint-lexicographic comparison of character lists; `localeCompare`
on the pure-ASCII month keys orders exactly like this. -/
def charListLeb : List Char → List Char → Bool
  | [], _ => true
  | _ :: _, [] => false
  | a :: as, b :: bs => if a = b then charListLeb as bs else decide (a < b)

/-- Codepoint-lexicographic string comparison (`a` at most `b`). -/
def strLeb (a b : String) : Bool := charListLeb a.data b.data

/-- The comparator of the monthly route's final
`.sort((a, b) => b.month.localeCompare(a.month))`: `a` may precede `b`
exactly when `b.month` is at most `a.month`, i.e. descending month keys. -/
def monthDesc (a b : MonthlyData) : Prop := strLeb b.month a.month = true

instance : DecidableRel monthDesc :=
  fun a b => inferInstanceAs (Decidable (_ = true))

/-- Grouping followed by the descending sort: the pure aggregation the
monthly route applies to the fetched entries.  `Array.prototype.sort` is
a stable sort by the comparator, hence extensionally insertion sort. -/
def aggregateMonthly (entries : List EggEntry) : List MonthlyData :=
  List.insertionSort monthDesc (groupMonthly entries)

/-- The fetch of the monthly route: the owner's rows with
`date >= sixMonthsAgo`, ordered by date ascending, projected to
(date, count). -/
def fetchMonthlyEntries (db : List EggRecord) (userId : String)
    (now : JSDate) : List EggEntry :=
  (List.insertionSort dateAscRel
      (db.filter fun r =>
        r.userId == userId && JSDate.leb (computeWindowStart now) r.date)).map
    fun r => ⟨r.date, r.count⟩

/-- GET /api/egg-production/monthly, end to end (authenticated path). -/
def monthlyRoute (db : List EggRecord) (userId : String) (now : JSDate) :
    List MonthlyData :=
  aggregateMonthly (fetchMonthlyEntries db userId now)

/-- Lookup of a month key in the grouped association list. -/
def findMonth (acc : List MonthlyData) (k : String) : Option MonthlyData :=
  acc.find? (fun m => m.month == k)

/-- Sum of the counts of the entries of one calendar month. -/
def monthTotal (entries : List EggEntry) (k : String) : Int :=
  ((entries.filter fun e => monthKey e.date == k).map EggEntry.count).sum

/-- Number of entries (recorded days) of one calendar month. -/
def monthDays (entries : List EggEntry) (k : String) : Nat :=
  (entries.filter fun e => monthKey e.date == k).length

/-! Concrete scenarios. -/

/-- Store timestamp used by the window-boundary scenario records. -/
def c2ts : JSDate := ⟨2024, 9, 1, 0⟩

/-- Eight consecutive monthly entries, 2024-01-15 through 2024-08-15,
with counts 40, 35, 30, 25, 20, 15, 10, 5, for one owner. -/
def c2db : List EggRecord :=
  [⟨"r1", "u1", ⟨2024, 1, 15, 0⟩, 40, c2ts, c2ts⟩,
   ⟨"r2", "u1", ⟨2024, 2, 15, 0⟩, 35, c2ts, c2ts⟩,
   ⟨"r3", "u1", ⟨2024, 3, 15, 0⟩, 30, c2ts, c2ts⟩,
   ⟨"r4", "u1", ⟨2024, 4, 15, 0⟩, 25, c2ts, c2ts⟩,
   ⟨"r5", "u1", ⟨2024, 5, 15, 0⟩, 20, c2ts, c2ts⟩,
   ⟨"r6", "u1", ⟨2024, 6, 15, 0⟩, 15, c2ts, c2ts⟩,
   ⟨"r7", "u1", ⟨2024, 7, 15, 0⟩, 10, c2ts, c2ts⟩,
   ⟨"r8", "u1", ⟨2024, 8, 15, 0⟩, 5, c2ts, c2ts⟩]

/-- C2: the fetch filter itself is inclusive (`>=`) and, with window start
2024-03-01, keeps exactly the six March-August entries summing to 105; but
the claimed window start - the first day of the calendar month 6 months
before the current month - is not what the route computes on month-end
days: at noon of 2025-12-31 the route computes 2025-07-01 (setMonth lands
on the nonexistent June 31, which rolls into July) while the claimed start
is 2025-06-01.  The computed start also carries the current time of day. -/
theorem monthly_window_start_rollover_bug :
    computeWindowStart ⟨2025, 12, 31, 43200000⟩ = ⟨2025, 7, 1, 43200000⟩
    ∧ windowStartSpec ⟨2025, 12, 31, 43200000⟩ = ⟨2025, 6, 1, 0⟩
    ∧ computeWindowStart ⟨2025, 12, 31, 43200000⟩
        ≠ windowStartSpec ⟨2025, 12, 31, 43200000⟩
    ∧ computeWindowStart ⟨2024, 9, 15, 0⟩ = ⟨2024, 3, 1, 0⟩
    ∧ fetchMonthlyEntries c2db "u1" ⟨2024, 9, 15, 0⟩ =
        [⟨⟨2024, 3, 15, 0⟩, 30⟩, ⟨⟨2024, 4, 15, 0⟩, 25⟩, ⟨⟨2024, 5, 15, 0⟩, 20⟩,
         ⟨⟨2024, 6, 15, 0⟩, 15⟩, ⟨⟨2024, 7, 15, 0⟩, 10⟩, ⟨⟨2024, 8, 15, 0⟩, 5⟩]
    ∧ ((fetchMonthlyEntries c2db "u1" ⟨2024, 9, 15, 0⟩).map EggEntry.count).sum = 105 :=
  ⟨rfl, rfl, by decide, rfl, rfl, rfl⟩

/-- C4: the future-date bound is the schema-creation instant, not the
validation instant.  With the schema module loaded 2025-01-01T00:00Z and a
parse performed 2025-06-01T00:00Z, the submitted date 2025-03-01 is not
after the validation moment, yet the parse rejects it with DateInFuture. -/
theorem date_in_future_uses_schema_creation_time :
    eggProductionSchema ⟨2025, 1, 1, 0⟩ ⟨2025, 3, 1, 0⟩ 5 = .error [dateInFutureIssue]
    ∧ JSDate.leb ⟨2025, 3, 1, 0⟩ ⟨2025, 6, 1, 0⟩ = true :=
  ⟨rfl, rfl⟩

/-- C5: the client dialog literally reuses the server schema (same rule
set and message text), but each tier evaluates `new Date()` when its own
module loads, so a date between the two creation instants is accepted by
the later-loaded instance and rejected by the earlier one: the outcomes
are not identical for every input. -/
theorem validation_parity_broken_by_captured_clock :
    (∀ (t d : JSDate) (c : ℚ), clientFormSchema t d c = eggProductionSchema t d c)
    ∧ clientFormSchema ⟨2025, 6, 1, 0⟩ ⟨2025, 3, 1, 0⟩ 5 = .ok ⟨⟨2025, 3, 1, 0⟩, 5⟩
    ∧ eggProductionSchema ⟨2025, 1, 1, 0⟩ ⟨2025, 3, 1, 0⟩ 5 = .error [dateInFutureIssue] :=
  ⟨fun _ _ _ => rfl, rfl, rfl⟩

/-- A stored zero-count record. -/
def c9record : EggRecord :=
  ⟨"e0", "u1", ⟨2025, 10, 5, 0⟩, 0, ⟨2025, 10, 5, 30000000⟩, ⟨2025, 10, 5, 30000000⟩⟩

/-- C9: a stored zero-count record is returned by a list query covering
its date (second and third conjuncts), but "count 0 with a past-or-today
date always validates" fails on the code: with the schema instance created
2025-10-10T23:00Z, a count-0 entry dated today 2025-10-11 (a date not
after the validation moment 2025-10-11T05:00Z) is rejected DateInFuture. -/
theorem zero_count_rejected_when_schema_stale :
    eggProductionSchema ⟨2025, 10, 10, 82800000⟩ ⟨2025, 10, 11, 0⟩ 0 = .error [dateInFutureIssue]
    ∧ JSDate.leb ⟨2025, 10, 11, 0⟩ ⟨2025, 10, 11, 18000000⟩ = true
    ∧ getEggProduction [c9record] "u1" (some ⟨2025, 10, 5, 0⟩) (some ⟨2025, 10, 5, 0⟩)
        = [c9record] :=
  ⟨rfl, rfl, rfl⟩

/-! Validation characterisation. -/

/-- A successful parse happens exactly when all three rules pass, and
returns the input unchanged. -/
theorem eggProductionSchema_ok_iff (t d : JSDate) (c : ℚ) (v : ValidatedEgg) :
    eggProductionSchema t d c = .ok v ↔
      (JSDate.leb d t = true ∧ c.den = 1 ∧ 0 ≤ c ∧ v = ⟨d, c⟩) := by
  by_cases h1 : JSDate.leb d t = true <;> by_cases h2 : c.den = 1 <;>
    by_cases h3 : (0 : ℚ) ≤ c <;>
      simp [eggProductionSchema, h1, h2, h3, eq_comm]

/-- The issues a parse reports are precisely the violated rules, each with
its fixed field path and message. -/
theorem hasIssue_schema (t d : JSDate) (c : ℚ) (i : FieldIssue) :
    hasIssue (eggProductionSchema t d c) i ↔
      ((i = dateInFutureIssue ∧ JSDate.leb d t = false)
       ∨ (i = countNotIntegerIssue ∧ c.den ≠ 1)
       ∨ (i = countNegativeIssue ∧ ¬ (0 : ℚ) ≤ c)) := by
  by_cases h1 : JSDate.leb d t = true <;> by_cases h2 : c.den = 1 <;>
    by_cases h3 : (0 : ℚ) ≤ c <;>
      simp [eggProductionSchema, hasIssue, h1, h2, h3, Bool.not_eq_true]

/-- C7: the count rules are exact: CountNotInteger (with its message) is
reported precisely for non-integral counts, CountNegative precisely for
negative counts; the five fractional sample counts all fail
CountNotInteger, and a natural-number count triggers neither count rule. -/
theorem count_validation_exact :
    ∀ (t d : JSDate) (c : ℚ),
      (hasIssue (eggProductionSchema t d c) countNotIntegerIssue ↔ c.den ≠ 1)
      ∧ (hasIssue (eggProductionSchema t d c) countNegativeIssue ↔ c < 0)
      ∧ (∀ q ∈ ([0.1, 0.5, 1.5, 10.1, 100.99] : List ℚ),
          hasIssue (eggProductionSchema t d q) countNotIntegerIssue)
      ∧ (∀ n : ℕ,
          ¬ hasIssue (eggProductionSchema t d (n : ℚ)) countNotIntegerIssue
          ∧ ¬ hasIssue (eggProductionSchema t d (n : ℚ)) countNegativeIssue) := by
  intro t d c
  have hdi : countNotIntegerIssue ≠ dateInFutureIssue := by decide
  have hdn : countNotIntegerIssue ≠ countNegativeIssue := by decide
  have hni : countNegativeIssue ≠ dateInFutureIssue := by decide
  have hnn : countNegativeIssue ≠ countNotIntegerIssue := by decide
  refine ⟨?_, ?_, ?_, ?_⟩
  · rw [hasIssue_schema]
    simp [hdi, hdn]
  · rw [hasIssue_schema]
    simp [hni, hnn, not_le]
  · intro q hq
    rw [hasIssue_schema]
    refine Or.inr (Or.inl ⟨rfl, ?_⟩)
    fin_cases hq <;> norm_num
  · intro n
    constructor <;> rw [hasIssue_schema] <;>
      simp [hdi, hdn, hni, hnn, Rat.den_natCast, Nat.cast_nonneg]

/-- Witness for C7 at concrete inputs: 1.5 is reported CountNotInteger,
and the natural count 7 triggers neither count rule. -/
theorem count_validation_exact_witness :
    hasIssue (eggProductionSchema ⟨2025, 1, 1, 0⟩ ⟨2024, 12, 1, 0⟩ 1.5)
        countNotIntegerIssue
    ∧ ¬ hasIssue (eggProductionSchema ⟨2025, 1, 1, 0⟩ ⟨2024, 12, 1, 0⟩ ((7 : ℕ) : ℚ))
        countNotIntegerIssue := by
  constructor
  · exact (count_validation_exact ⟨2025, 1, 1, 0⟩ ⟨2024, 12, 1, 0⟩ 0).2.2.1 1.5
      (by simp)
  · exact ((count_validation_exact ⟨2025, 1, 1, 0⟩ ⟨2024, 12, 1, 0⟩ 0).2.2.2 7).1

/-- C8: when several rules are violated at once, all violations are
reported together, each under its own field path: a future date combined
with a non-integral count yields both the date issue and the count issue,
and combined with a negative count yields both the date issue and the
negativity issue. -/
theorem validation_collects_all_violations :
    ∀ (t d : JSDate) (c : ℚ), JSDate.leb d t = false →
      (c.den ≠ 1 →
        hasIssue (eggProductionSchema t d c) dateInFutureIssue
        ∧ hasIssue (eggProductionSchema t d c) countNotIntegerIssue)
      ∧ (c < 0 →
        hasIssue (eggProductionSchema t d c) dateInFutureIssue
        ∧ hasIssue (eggProductionSchema t d c) countNegativeIssue) := by
  intro t d c h1
  constructor
  · intro h2
    constructor <;> rw [hasIssue_schema]
    · exact Or.inl ⟨rfl, h1⟩
    · exact Or.inr (Or.inl ⟨rfl, h2⟩)
  · intro h3
    constructor <;> rw [hasIssue_schema]
    · exact Or.inl ⟨rfl, h1⟩
    · exact Or.inr (Or.inr ⟨rfl, not_le.mpr h3⟩)

/-- Witness for C8: a tomorrow-dated entry with count -0.5 (both
non-integral and negative) reports the date issue and both count issues. -/
theorem validation_collects_all_violations_witness :
    hasIssue (eggProductionSchema ⟨2025, 1, 1, 0⟩ ⟨2025, 1, 2, 0⟩ (-0.5))
        dateInFutureIssue
    ∧ hasIssue (eggProductionSchema ⟨2025, 1, 1, 0⟩ ⟨2025, 1, 2, 0⟩ (-0.5))
        countNotIntegerIssue
    ∧ hasIssue (eggProductionSchema ⟨2025, 1, 1, 0⟩ ⟨2025, 1, 2, 0⟩ (-0.5))
        countNegativeIssue := by
  have h := validation_collects_all_violations ⟨2025, 1, 1, 0⟩ ⟨2025, 1, 2, 0⟩ (-0.5) rfl
  refine ⟨(h.1 (by norm_num)).1, (h.1 (by norm_num)).2, (h.2 (by norm_num)).2⟩

/-! Create and update flows. -/

/-- C3: once a create for (owner, date) has succeeded, a second
otherwise-valid create for the same owner and date is answered with the
DuplicateDateEntry issue and its user-actionable message (the translated
uniqueness violation), never a raw storage error; creates for the same
date by two different owners both succeed. -/
theorem create_duplicate_date_entry :
    ∀ (schemaNow now1 now2 : JSDate) (db : List EggRecord)
      (u1 u2 id1 id2 : String) (d : JSDate) (c1 c2 : ℚ),
      (∀ (e : EggRecord) (db1 : List EggRecord) (v : ValidatedEgg),
        postEggProduction schemaNow db u1 id1 now1 d c1 = .created e db1 →
        eggProductionSchema schemaNow d c2 = .ok v →
        postEggProduction schemaNow db1 u1 id2 now2 d c2
          = .badRequest "An entry already exists for this date"
              [⟨.DuplicateDateEntry, "date",
                "You already have an entry for this date. Please edit the existing entry instead."⟩])
      ∧ (u1 ≠ u2 →
        ∀ (v1 v2 : ValidatedEgg),
          eggProductionSchema schemaNow d c1 = .ok v1 →
          eggProductionSchema schemaNow d c2 = .ok v2 →
          db.any (fun r => r.userId == u1 && r.date == d) = false →
          db.any (fun r => r.userId == u2 && r.date == d) = false →
          ∃ (e1 : EggRecord) (db1 : List EggRecord) (e2 : EggRecord)
            (db2 : List EggRecord),
            postEggProduction schemaNow db u1 id1 now1 d c1 = .created e1 db1
            ∧ postEggProduction schemaNow db1 u2 id2 now2 d c2 = .created e2 db2) := by
  intro schemaNow now1 now2 db u1 u2 id1 id2 d c1 c2
  constructor
  · intro e db1 v hpost hok2
    obtain ⟨hle2, hden2, hpos2, hveq⟩ := (eggProductionSchema_ok_iff _ _ _ _).mp hok2
    subst hveq
    cases hv1 : eggProductionSchema schemaNow d c1 with
    | error issues => simp [postEggProduction, hv1] at hpost
    | ok v1 =>
      obtain ⟨hle1, hden1, hpos1, hv1eq⟩ := (eggProductionSchema_ok_iff _ _ _ _).mp hv1
      subst hv1eq
      by_cases hdup : db.any (fun r => r.userId == u1 && r.date == d) = true
      · simp [postEggProduction, hv1, hdup] at hpost
      · simp [postEggProduction, hv1, hdup] at hpost
        obtain ⟨he, hdb1⟩ := hpost
        subst hdb1
        simp [postEggProduction, hok2, List.any_append]
  · intro hne v1 v2 h1 h2 ha1 ha2
    obtain ⟨hle1, hden1, hpos1, hv1⟩ := (eggProductionSchema_ok_iff _ _ _ _).mp h1
    subst hv1
    obtain ⟨hle2, hden2, hpos2, hv2⟩ := (eggProductionSchema_ok_iff _ _ _ _).mp h2
    subst hv2
    have hub : (u1 == u2) = false := beq_eq_false_iff_ne.mpr hne
    refine ⟨⟨id1, u1, d, c1.num, now1, now1⟩, db ++ [⟨id1, u1, d, c1.num, now1, now1⟩],
      ⟨id2, u2, d, c2.num, now2, now2⟩,
      (db ++ [⟨id1, u1, d, c1.num, now1, now1⟩]) ++ [⟨id2, u2, d, c2.num, now2, now2⟩],
      ?_, ?_⟩
    · simp [postEggProduction, h1, ha1]
    · simp [postEggProduction, h2, List.any_append, ha2, hub]

/-- Witness for C3: with an empty store, alice creates an entry for
2024-12-25; her second create for the same date is answered with the
DuplicateDateEntry detail. -/
theorem create_duplicate_date_entry_witness :
    postEggProduction ⟨2025, 1, 1, 0⟩
        [⟨"i1", "alice", ⟨2024, 12, 25, 0⟩, 5, ⟨2025, 1, 1, 3600000⟩, ⟨2025, 1, 1, 3600000⟩⟩]
        "alice" "i2" ⟨2025, 1, 1, 7200000⟩ ⟨2024, 12, 25, 0⟩ 6
      = .badRequest "An entry already exists for this date"
          [⟨.DuplicateDateEntry, "date",
            "You already have an entry for this date. Please edit the existing entry instead."⟩] :=
  (create_duplicate_date_entry ⟨2025, 1, 1, 0⟩ ⟨2025, 1, 1, 3600000⟩ ⟨2025, 1, 1, 7200000⟩
      [] "alice" "bob" "i1" "i2" ⟨2024, 12, 25, 0⟩ 5 6).1
    ⟨"i1", "alice", ⟨2024, 12, 25, 0⟩, 5, ⟨2025, 1, 1, 3600000⟩, ⟨2025, 1, 1, 3600000⟩⟩
    [⟨"i1", "alice", ⟨2024, 12, 25, 0⟩, 5, ⟨2025, 1, 1, 3600000⟩, ⟨2025, 1, 1, 3600000⟩⟩]
    ⟨⟨2024, 12, 25, 0⟩, 6⟩ rfl rfl

/-- C6: the update flow: a missing id gives NotFound; a foreign record
gives Forbidden, before and independently of input validation; an invalid
body on an owned record gives the validation issues; a date collision with
another record of the same owner gives the DuplicateDateEntry detail; and
otherwise the fields are written, `createdAt` is kept, `updatedAt` is
refreshed, and the updated record is returned. -/
theorem update_checks_and_applies :
    ∀ (schemaNow now : JSDate) (db : List EggRecord) (req id : String)
      (d : JSDate) (c : ℚ),
      (db.find? (fun r => r.id == id) = none →
        putEggProduction schemaNow db req id now d c = .notFound)
      ∧ (∀ r, db.find? (fun r => r.id == id) = some r → r.userId ≠ req →
          putEggProduction schemaNow db req id now d c = .forbidden)
      ∧ (∀ r issues, db.find? (fun r => r.id == id) = some r → r.userId = req →
          eggProductionSchema schemaNow d c = .error issues →
          putEggProduction schemaNow db req id now d c
            = .badRequest "Validation failed" issues)
      ∧ (∀ r v, db.find? (fun r => r.id == id) = some r → r.userId = req →
          eggProductionSchema schemaNow d c = .ok v →
          db.any (fun r2 => r2.id != id && r2.userId == r.userId && r2.date == d) = true →
          putEggProduction schemaNow db req id now d c
            = .badRequest "An entry already exists for this date"
                [⟨.DuplicateDateEntry, "date",
                  "You already have an entry for this date. Please select a different date or edit the existing entry."⟩])
      ∧ (∀ r v, db.find? (fun r => r.id == id) = some r → r.userId = req →
          eggProductionSchema schemaNow d c = .ok v →
          db.any (fun r2 => r2.id != id && r2.userId == r.userId && r2.date == d) = false →
          putEggProduction schemaNow db req id now d c
            = .ok ⟨r.id, r.userId, d, c.num, r.createdAt, now⟩
                (db.map fun r2 =>
                  if r2.id == id then ⟨r.id, r.userId, d, c.num, r.createdAt, now⟩
                  else r2)) := by
  intro schemaNow now db req id d c
  refine ⟨?_, ?_, ?_, ?_, ?_⟩
  · intro hfind
    simp [putEggProduction, hfind]
  · intro r hfind hne
    simp [putEggProduction, hfind, hne]
  · intro r issues hfind hown herr
    simp [putEggProduction, hfind, hown, herr]
  · intro r v hfind hown hok hdup
    obtain ⟨hle, hden, hpos, hveq⟩ := (eggProductionSchema_ok_iff _ _ _ _).mp hok
    subst hveq
    rw [hown] at hdup
    simp [putEggProduction, hfind, hown, hok]
    simpa [and_assoc] using hdup
  · intro r v hfind hown hok hdup
    obtain ⟨hle, hden, hpos, hveq⟩ := (eggProductionSchema_ok_iff _ _ _ _).mp hok
    subst hveq
    rw [hown] at hdup
    simp [putEggProduction, hfind, hown, hok]
    simpa [and_assoc] using hdup

/-- Witness for C6, success branch: the owner moves the entry to
2025-01-06 with count 7; the stored row keeps its id, owner and
`createdAt` and gets the fresh `updatedAt`. -/
theorem update_checks_and_applies_witness :
    putEggProduction ⟨2025, 2, 1, 0⟩
        [⟨"id1", "u1", ⟨2025, 1, 5, 0⟩, 3, ⟨2025, 1, 5, 0⟩, ⟨2025, 1, 5, 0⟩⟩]
        "u1" "id1" ⟨2025, 1, 6, 50000⟩ ⟨2025, 1, 6, 0⟩ 7
      = .ok ⟨"id1", "u1", ⟨2025, 1, 6, 0⟩, 7, ⟨2025, 1, 5, 0⟩, ⟨2025, 1, 6, 50000⟩⟩
          [⟨"id1", "u1", ⟨2025, 1, 6, 0⟩, 7, ⟨2025, 1, 5, 0⟩, ⟨2025, 1, 6, 50000⟩⟩] :=
  (update_checks_and_applies ⟨2025, 2, 1, 0⟩ ⟨2025, 1, 6, 50000⟩
      [⟨"id1", "u1", ⟨2025, 1, 5, 0⟩, 3, ⟨2025, 1, 5, 0⟩, ⟨2025, 1, 5, 0⟩⟩]
      "u1" "id1" ⟨2025, 1, 6, 0⟩ 7).2.2.2.2
    ⟨"id1", "u1", ⟨2025, 1, 5, 0⟩, 3, ⟨2025, 1, 5, 0⟩, ⟨2025, 1, 5, 0⟩⟩
    ⟨⟨2025, 1, 6, 0⟩, 7⟩ rfl rfl rfl rfl

/-! The codepoint-lexicographic comparison is a total preorder with
antisymmetry, which makes the descending month-key sort well behaved. -/

theorem charListLeb_total : ∀ xs ys : List Char,
    charListLeb xs ys = true ∨ charListLeb ys xs = true
  | [], _ => Or.inl rfl
  | _ :: _, [] => Or.inr rfl
  | x :: xs, y :: ys => by
    by_cases h : x = y
    · subst h
      rcases charListLeb_total xs ys with h2 | h2
      · exact Or.inl (by simp [charListLeb, h2])
      · exact Or.inr (by simp [charListLeb, h2])
    · rcases lt_or_gt_of_ne h with hlt | hgt
      · exact Or.inl (by simp [charListLeb, h, hlt])
      · exact Or.inr (by simp [charListLeb, Ne.symm h, hgt])

theorem charListLeb_trans : ∀ xs ys zs : List Char,
    charListLeb xs ys = true → charListLeb ys zs = true → charListLeb xs zs = true
  | [], _, _ => by intro _ _; rfl
  | _ :: _, [], _ => by intro h _; simp [charListLeb] at h
  | _ :: _, _ :: _, [] => by intro _ h; simp [charListLeb] at h
  | x :: xs, y :: ys, z :: zs => by
    intro h1 h2
    by_cases hxy : x = y
    · subst hxy
      by_cases hxz : x = z
      · subst hxz
        simp [charListLeb] at h1 h2 ⊢
        exact charListLeb_trans xs ys zs h1 h2
      · simp [charListLeb, hxz] at h2 ⊢
        exact h2
    · simp [charListLeb, hxy] at h1
      by_cases hyz : y = z
      · subst hyz
        simp [charListLeb, hxy] at h2 ⊢
        exact h1
      · simp [charListLeb, hyz] at h2
        have hxz : x < z := lt_trans h1 h2
        simp [charListLeb, ne_of_lt hxz]
        exact hxz

theorem charListLeb_antisymm : ∀ xs ys : List Char,
    charListLeb xs ys = true → charListLeb ys xs = true → xs = ys
  | [], [] => by intro _ _; rfl
  | [], _ :: _ => by intro _ h; simp [charListLeb] at h
  | _ :: _, [] => by intro h _; simp [charListLeb] at h
  | x :: xs, y :: ys => by
    intro h1 h2
    by_cases hxy : x = y
    · subst hxy
      simp [charListLeb] at h1 h2
      rw [charListLeb_antisymm xs ys h1 h2]
    · simp [charListLeb, hxy] at h1
      simp [charListLeb, Ne.symm hxy] at h2
      exact absurd h2 (lt_asymm h1)

theorem strLeb_total (a b : String) : strLeb a b = true ∨ strLeb b a = true :=
  charListLeb_total a.data b.data

theorem strLeb_trans {a b c : String} (h1 : strLeb a b = true)
    (h2 : strLeb b c = true) : strLeb a c = true :=
  charListLeb_trans a.data b.data c.data h1 h2

theorem strLeb_antisymm {a b : String} (h1 : strLeb a b = true)
    (h2 : strLeb b a = true) : a = b :=
  String.toList_inj.mp (charListLeb_antisymm a.data b.data h1 h2)

instance : IsTotal MonthlyData monthDesc :=
  ⟨fun a b => strLeb_total b.month a.month⟩

instance : IsTrans MonthlyData monthDesc :=
  ⟨fun _ _ _ hab hbc => strLeb_trans hbc hab⟩

/-! Behaviour of one grouping step on lookups, keys and sums. -/

theorem findMonth_insert_other (acc : List MonthlyData) (k : String) (c : Int)
    (q : String) (hq : q ≠ k) :
    findMonth (insertMonthly acc k c) q = findMonth acc q := by
  induction acc with
  | nil => simp [insertMonthly, findMonth, Ne.symm hq]
  | cons m rest ih =>
    by_cases hm : m.month = k
    · have hkq : (k == q) = false := by simp [Ne.symm hq]
      simp only [insertMonthly, if_pos hm, findMonth, List.find?_cons, hm]
      simp [hkq]
    · simp only [insertMonthly, if_neg hm, findMonth, List.find?_cons]
      cases hmq : (m.month == q) <;> simpa [hmq] using ih

theorem findMonth_insert_self_none (acc : List MonthlyData) (k : String) (c : Int)
    (h : findMonth acc k = none) :
    findMonth (insertMonthly acc k c) k = some ⟨k, c, 1⟩ := by
  induction acc with
  | nil => simp [insertMonthly, findMonth]
  | cons m rest ih =>
    simp only [findMonth, List.find?_cons] at h
    cases hmk : (m.month == k) with
    | true => rw [hmk] at h; simp at h
    | false =>
      rw [hmk] at h
      simp only [insertMonthly, if_neg (by simpa using hmk), findMonth,
        List.find?_cons, hmk]
      exact ih h

theorem findMonth_insert_self_some (acc : List MonthlyData) (k : String) (c : Int)
    (m : MonthlyData) (h : findMonth acc k = some m) :
    findMonth (insertMonthly acc k c) k
      = some ⟨m.month, m.totalCount + c, m.daysRecorded + 1⟩ := by
  induction acc with
  | nil => simp [findMonth] at h
  | cons a rest ih =>
    simp only [findMonth, List.find?_cons] at h
    cases hak : (a.month == k) with
    | true =>
      rw [hak] at h
      simp only [Option.some.injEq] at h
      subst h
      have hak' : a.month = k := by simpa using hak
      simp [insertMonthly, hak', findMonth, List.find?_cons]
    | false =>
      rw [hak] at h
      have hak' : ¬ a.month = k := by simpa using hak
      simp only [insertMonthly, if_neg hak', findMonth, List.find?_cons, hak]
      exact ih h

theorem keys_insertMonthly (acc : List MonthlyData) (k : String) (c : Int) :
    (insertMonthly acc k c).map MonthlyData.month =
      if k ∈ acc.map MonthlyData.month then acc.map MonthlyData.month
      else acc.map MonthlyData.month ++ [k] := by
  induction acc with
  | nil => simp [insertMonthly]
  | cons m rest ih =>
    by_cases hm : m.month = k
    · simp [insertMonthly, hm]
    · simp only [insertMonthly, if_neg hm, List.map_cons, ih, List.mem_cons]
      by_cases hk : k ∈ rest.map MonthlyData.month
      · simp [hk, Ne.symm hm]
      · simp [hk, Ne.symm hm]

theorem nodup_keys_insertMonthly (acc : List MonthlyData) (k : String) (c : Int)
    (h : (acc.map MonthlyData.month).Nodup) :
    ((insertMonthly acc k c).map MonthlyData.month).Nodup := by
  rw [keys_insertMonthly]
  by_cases hk : k ∈ acc.map MonthlyData.month
  · simpa [hk] using h
  · simp [hk, List.nodup_append, h]

theorem totalSum_insertMonthly (acc : List MonthlyData) (k : String) (c : Int) :
    ((insertMonthly acc k c).map MonthlyData.totalCount).sum
      = (acc.map MonthlyData.totalCount).sum + c := by
  induction acc with
  | nil => simp [insertMonthly]
  | cons m rest ih =>
    by_cases hm : m.month = k
    · simp [insertMonthly, hm]
      ring
    · simp [insertMonthly, hm, ih]
      ring

theorem daysSum_insertMonthly (acc : List MonthlyData) (k : String) (c : Int) :
    ((insertMonthly acc k c).map MonthlyData.daysRecorded).sum
      = (acc.map MonthlyData.daysRecorded).sum + 1 := by
  induction acc with
  | nil => simp [insertMonthly]
  | cons m rest ih =>
    by_cases hm : m.month = k
    · simp [insertMonthly, hm]
      omega
    · simp [insertMonthly, hm, ih]
      omega

theorem monthTotal_cons_self (e : EggEntry) (es : List EggEntry) (k : String)
    (h : monthKey e.date = k) :
    monthTotal (e :: es) k = e.count + monthTotal es k := by
  simp [monthTotal, List.filter_cons, h]

theorem monthTotal_cons_other (e : EggEntry) (es : List EggEntry) (k : String)
    (h : ¬ monthKey e.date = k) :
    monthTotal (e :: es) k = monthTotal es k := by
  simp [monthTotal, List.filter_cons, h]

theorem monthDays_cons_self (e : EggEntry) (es : List EggEntry) (k : String)
    (h : monthKey e.date = k) :
    monthDays (e :: es) k = monthDays es k + 1 := by
  simp [monthDays, List.filter_cons, h]

theorem monthDays_cons_other (e : EggEntry) (es : List EggEntry) (k : String)
    (h : ¬ monthKey e.date = k) :
    monthDays (e :: es) k = monthDays es k := by
  simp [monthDays, List.filter_cons, h]

/-- Running the grouping loop over further entries extends a key's group
by the contribution of exactly the entries with that month key. -/
theorem findMonth_foldl_some : ∀ (es : List EggEntry) (acc : List MonthlyData)
    (k : String) (m : MonthlyData), findMonth acc k = some m →
    findMonth (es.foldl (fun a e => insertMonthly a (monthKey e.date) e.count) acc) k
      = some ⟨m.month, m.totalCount + monthTotal es k, m.daysRecorded + monthDays es k⟩
  | [], acc, k, m, h => by simpa [monthTotal, monthDays] using h
  | e :: es, acc, k, m, h => by
    rw [List.foldl_cons]
    by_cases hk : monthKey e.date = k
    · subst hk
      rw [findMonth_foldl_some es _ _ _ (findMonth_insert_self_some acc _ e.count m h)]
      rw [monthTotal_cons_self e es _ rfl, monthDays_cons_self e es _ rfl]
      simp only [Option.some.injEq, MonthlyData.mk.injEq]
      refine ⟨trivial, by ring, by omega⟩
    · have h2 : findMonth (insertMonthly acc (monthKey e.date) e.count) k = some m := by
        rw [findMonth_insert_other acc _ e.count k (Ne.symm hk)]
        exact h
      rw [findMonth_foldl_some es _ k m h2, monthTotal_cons_other e es k hk,
        monthDays_cons_other e es k hk]

/-- The grouping loop creates a key's group exactly when an entry of that
month is seen, with the totals over the matching entries. -/
theorem findMonth_foldl_none : ∀ (es : List EggEntry) (acc : List MonthlyData)
    (k : String), findMonth acc k = none →
    findMonth (es.foldl (fun a e => insertMonthly a (monthKey e.date) e.count) acc) k
      = if monthDays es k = 0 then none
        else some ⟨k, monthTotal es k, monthDays es k⟩
  | [], acc, k, h => by simpa [monthDays] using h
  | e :: es, acc, k, h => by
    rw [List.foldl_cons]
    by_cases hk : monthKey e.date = k
    · subst hk
      rw [findMonth_foldl_some es _ _ _ (findMonth_insert_self_none acc _ e.count h)]
      rw [monthTotal_cons_self e es _ rfl, monthDays_cons_self e es _ rfl]
      rw [if_neg (by omega)]
      simp only [Option.some.injEq, MonthlyData.mk.injEq]
      refine ⟨trivial, trivial, by omega⟩
    · have h2 : findMonth (insertMonthly acc (monthKey e.date) e.count) k = none := by
        rw [findMonth_insert_other acc _ e.count k (Ne.symm hk)]
        exact h
      rw [findMonth_foldl_none es _ k h2, monthTotal_cons_other e es k hk,
        monthDays_cons_other e es k hk]

theorem findMonth_groupMonthly (es : List EggEntry) (k : String) :
    findMonth (groupMonthly es) k =
      if monthDays es k = 0 then none
      else some ⟨k, monthTotal es k, monthDays es k⟩ :=
  findMonth_foldl_none es [] k rfl

theorem nodup_keys_foldl : ∀ (es : List EggEntry) (acc : List MonthlyData),
    (acc.map MonthlyData.month).Nodup →
    ((es.foldl (fun a e => insertMonthly a (monthKey e.date) e.count) acc).map
        MonthlyData.month).Nodup
  | [], _, h => h
  | e :: es, acc, h => by
    rw [List.foldl_cons]
    exact nodup_keys_foldl es _ (nodup_keys_insertMonthly acc _ e.count h)

theorem totalSum_foldl : ∀ (es : List EggEntry) (acc : List MonthlyData),
    ((es.foldl (fun a e => insertMonthly a (monthKey e.date) e.count) acc).map
        MonthlyData.totalCount).sum
      = (acc.map MonthlyData.totalCount).sum + (es.map EggEntry.count).sum
  | [], acc => by simp
  | e :: es, acc => by
    rw [List.foldl_cons, totalSum_foldl es _, totalSum_insertMonthly]
    simp
    ring

theorem daysSum_foldl : ∀ (es : List EggEntry) (acc : List MonthlyData),
    ((es.foldl (fun a e => insertMonthly a (monthKey e.date) e.count) acc).map
        MonthlyData.daysRecorded).sum
      = (acc.map MonthlyData.daysRecorded).sum + es.length
  | [], acc => by simp
  | e :: es, acc => by
    rw [List.foldl_cons, daysSum_foldl es _, daysSum_insertMonthly]
    simp
    omega

theorem nodup_keys_groupMonthly (es : List EggEntry) :
    ((groupMonthly es).map MonthlyData.month).Nodup :=
  nodup_keys_foldl es [] (by simp)

theorem findMonth_of_mem : ∀ (acc : List MonthlyData),
    (acc.map MonthlyData.month).Nodup →
    ∀ m ∈ acc, findMonth acc m.month = some m
  | [], _, m, hm => absurd hm (List.not_mem_nil m)
  | a :: rest, h, m, hm => by
    rcases List.mem_cons.mp hm with rfl | hm'
    · simp [findMonth, List.find?_cons]
    · rw [List.map_cons] at h
      have hnd := List.nodup_cons.mp h
      have hne : ¬ a.month = m.month := by
        intro hEq
        exact hnd.1 (hEq ▸ List.mem_map_of_mem MonthlyData.month hm')
      have := findMonth_of_mem rest hnd.2 m hm'
      simpa [findMonth, List.find?_cons, hne] using this

theorem findMonth_eq_some_mem {acc : List MonthlyData} {k : String}
    {m : MonthlyData} (h : findMonth acc k = some m) : m ∈ acc ∧ m.month = k := by
  refine ⟨List.mem_of_find?_eq_some h, ?_⟩
  have := List.find?_some h
  simpa using this

/-- Every element of the aggregation output carries exactly the totals of
the fetched entries of its month, and its month has at least one entry. -/
theorem mem_aggregateMonthly (es : List EggEntry) (m : MonthlyData)
    (hm : m ∈ aggregateMonthly es) :
    m.totalCount = monthTotal es m.month ∧ m.daysRecorded = monthDays es m.month
      ∧ monthDays es m.month ≠ 0 := by
  have hperm := List.perm_insertionSort monthDesc (groupMonthly es)
  have hmg : m ∈ groupMonthly es := hperm.mem_iff.mp hm
  have hfind := findMonth_of_mem _ (nodup_keys_groupMonthly es) m hmg
  rw [findMonth_groupMonthly] at hfind
  by_cases h0 : monthDays es m.month = 0
  · rw [if_pos h0] at hfind
    cases hfind
  · rw [if_neg h0] at hfind
    simp only [Option.some.injEq] at hfind
    obtain ⟨mo, tc, dr⟩ := m
    simp only [MonthlyData.mk.injEq] at hfind
    exact ⟨hfind.2.1.symm, hfind.2.2.symm, h0⟩

/-- A month key appears in the aggregation output exactly when some
fetched entry falls in that calendar month. -/
theorem month_present_iff (es : List EggEntry) (k : String) :
    (∃ m ∈ aggregateMonthly es, m.month = k) ↔ (∃ e ∈ es, monthKey e.date = k) := by
  have hperm := List.perm_insertionSort monthDesc (groupMonthly es)
  constructor
  · rintro ⟨m, hm, rfl⟩
    have h := mem_aggregateMonthly es m hm
    have h0 := h.2.2
    have hne : (es.filter fun e => monthKey e.date == m.month) ≠ [] := by
      intro hnil
      rw [monthDays, hnil] at h0
      simp at h0
    obtain ⟨e, he⟩ := List.exists_mem_of_ne_nil _ hne
    have hef := List.mem_filter.mp he
    exact ⟨e, hef.1, by simpa using hef.2⟩
  · rintro ⟨e, he, hk⟩
    have h0 : monthDays es k ≠ 0 := by
      have hmem : e ∈ es.filter fun e2 => monthKey e2.date == k :=
        List.mem_filter.mpr ⟨he, by simp [hk]⟩
      intro hzero
      rw [monthDays, List.length_eq_zero] at hzero
      rw [hzero] at hmem
      cases hmem
    have hfind := findMonth_groupMonthly es k
    rw [if_neg h0] at hfind
    obtain ⟨hmem, hmonth⟩ := findMonth_eq_some_mem hfind
    exact ⟨_, hperm.mem_iff.mpr hmem, hmonth⟩

/-- C1: every output group of the monthly aggregation carries the sum of
`count` and the number of records of its zero-padded "YYYY-MM" month key,
a month key appears exactly when some fetched record falls in it, the
output is strictly descending in the month key (codepoint string order,
as `localeCompare` gives on these keys), and on the records
2025-09-10: 5, 2025-09-20: 6, 2025-10-05: 8, 2025-10-15: 9 the output is
exactly October (17 over 2 days) before September (11 over 2 days). -/
theorem monthly_aggregation_groups_and_sorts :
    (∀ (entries : List EggEntry), ∀ m ∈ aggregateMonthly entries,
        m.totalCount = monthTotal entries m.month
        ∧ m.daysRecorded = monthDays entries m.month)
    ∧ (∀ (entries : List EggEntry) (k : String),
        (∃ m ∈ aggregateMonthly entries, m.month = k)
          ↔ (∃ e ∈ entries, monthKey e.date = k))
    ∧ (∀ (entries : List EggEntry),
        (aggregateMonthly entries).Pairwise
          (fun a b => strLeb b.month a.month = true ∧ strLeb a.month b.month = false))
    ∧ aggregateMonthly
        [⟨⟨2025, 9, 10, 0⟩, 5⟩, ⟨⟨2025, 9, 20, 0⟩, 6⟩,
         ⟨⟨2025, 10, 5, 0⟩, 8⟩, ⟨⟨2025, 10, 15, 0⟩, 9⟩]
        = [⟨"2025-10", 17, 2⟩, ⟨"2025-09", 11, 2⟩] := by
  refine ⟨?_, month_present_iff, ?_, by rfl⟩
  · intro entries m hm
    exact ⟨(mem_aggregateMonthly entries m hm).1, (mem_aggregateMonthly entries m hm).2.1⟩
  · intro entries
    have hsorted : (aggregateMonthly entries).Pairwise monthDesc :=
      List.sorted_insertionSort monthDesc (groupMonthly entries)
    have hperm := List.perm_insertionSort monthDesc (groupMonthly entries)
    have hnodup : ((aggregateMonthly entries).map MonthlyData.month).Nodup :=
      ((hperm.map MonthlyData.month).nodup_iff).mpr (nodup_keys_groupMonthly entries)
    have hne : (aggregateMonthly entries).Pairwise (fun a b => a.month ≠ b.month) :=
      List.pairwise_map.mp hnodup
    refine (hsorted.and hne).imp ?_
    rintro a b ⟨hle, hab⟩
    refine ⟨hle, ?_⟩
    cases h : strLeb a.month b.month
    · rfl
    · exact absurd (strLeb_antisymm h hle) hab

/-- Witness for C1 at the concrete record set: the October group of the
output carries the month's sum 17 and its 2 recorded days. -/
theorem monthly_aggregation_groups_and_sorts_witness :
    (⟨"2025-10", 17, 2⟩ : MonthlyData).totalCount
      = monthTotal
          [⟨⟨2025, 9, 10, 0⟩, 5⟩, ⟨⟨2025, 9, 20, 0⟩, 6⟩,
           ⟨⟨2025, 10, 5, 0⟩, 8⟩, ⟨⟨2025, 10, 15, 0⟩, 9⟩] "2025-10"
    ∧ (⟨"2025-10", 17, 2⟩ : MonthlyData).daysRecorded
      = monthDays
          [⟨⟨2025, 9, 10, 0⟩, 5⟩, ⟨⟨2025, 9, 20, 0⟩, 6⟩,
           ⟨⟨2025, 10, 5, 0⟩, 8⟩, ⟨⟨2025, 10, 15, 0⟩, 9⟩] "2025-10" := by
  have h := monthly_aggregation_groups_and_sorts
  exact h.1
    [⟨⟨2025, 9, 10, 0⟩, 5⟩, ⟨⟨2025, 9, 20, 0⟩, 6⟩,
     ⟨⟨2025, 10, 5, 0⟩, 8⟩, ⟨⟨2025, 10, 15, 0⟩, 9⟩]
    ⟨"2025-10", 17, 2⟩ (by rw [h.2.2.2]; simp)

/-- C10: the monthly aggregation partitions the fetched record set: each
output month has at least one recorded day, the days over all months sum
to the number of fetched records, and the month totals sum to the total
count over the raw records (the totals-row identity of the UI table). -/
theorem monthly_aggregation_partition :
    ∀ (entries : List EggEntry),
      (∀ m ∈ aggregateMonthly entries, 1 ≤ m.daysRecorded)
      ∧ ((aggregateMonthly entries).map MonthlyData.daysRecorded).sum = entries.length
      ∧ ((aggregateMonthly entries).map MonthlyData.totalCount).sum
          = (entries.map EggEntry.count).sum := by
  intro entries
  have hperm := List.perm_insertionSort monthDesc (groupMonthly entries)
  refine ⟨?_, ?_, ?_⟩
  · intro m hm
    have h := mem_aggregateMonthly entries m hm
    have h1 := h.2.1
    have h2 := h.2.2
    omega
  · rw [aggregateMonthly, (hperm.map MonthlyData.daysRecorded).sum_eq]
    simpa using daysSum_foldl entries []
  · rw [aggregateMonthly, (hperm.map MonthlyData.totalCount).sum_eq]
    simpa using totalSum_foldl entries []

/-- Witness for C10 on a concrete record set spanning two months: the May
group has a positive day count, and both partition sums hold. -/
theorem monthly_aggregation_partition_witness :
    1 ≤ (⟨"2024-05", 5, 2⟩ : MonthlyData).daysRecorded
    ∧ ((aggregateMonthly
          [⟨⟨2024, 5, 1, 0⟩, 2⟩, ⟨⟨2024, 5, 2, 0⟩, 3⟩, ⟨⟨2024, 6, 1, 0⟩, 4⟩]).map
        MonthlyData.daysRecorded).sum
      = ([⟨⟨2024, 5, 1, 0⟩, 2⟩, ⟨⟨2024, 5, 2, 0⟩, 3⟩,
          ⟨⟨2024, 6, 1, 0⟩, 4⟩] : List EggEntry).length
    ∧ ((aggregateMonthly
          [⟨⟨2024, 5, 1, 0⟩, 2⟩, ⟨⟨2024, 5, 2, 0⟩, 3⟩, ⟨⟨2024, 6, 1, 0⟩, 4⟩]).map
        MonthlyData.totalCount).sum
      = (([⟨⟨2024, 5, 1, 0⟩, 2⟩, ⟨⟨2024, 5, 2, 0⟩, 3⟩,
          ⟨⟨2024, 6, 1, 0⟩, 4⟩] : List EggEntry).map EggEntry.count).sum := by
  have h := monthly_aggregation_partition
    [⟨⟨2024, 5, 1, 0⟩, 2⟩, ⟨⟨2024, 5, 2, 0⟩, 3⟩, ⟨⟨2024, 6, 1, 0⟩, 4⟩]
  exact ⟨h.1 ⟨"2024-05", 5, 2⟩ (by decide), h.2.1, h.2.2⟩

end ChickenTracker
